import Mathlib

/-!
# Verification of swayimg's image-list registry and gallery thumbnail loader

Shallow embedding of `src/imglist.c` (ordered registry of image entries) and
`src/gallery.c` (persistent thumbnail cache and loader worker) into Lean 4.
Machine integers are modelled as `Int`/`Nat` with explicit two's-complement
wrapping (`wrap64`) where the C code performs 64-bit arithmetic whose overflow
behaviour matters.  External capabilities (filesystem `stat`, image decoding,
`strcoll`) are modelled as explicit parameters or byte-wise functions, as noted
on each definition.
-/

namespace Swayimg

/-- Order of file list (`enum list_order` in imglist.c). -/
inductive ListOrder where
  | none
  | alpha
  | numeric
  | mtime
  | size
  | random
deriving DecidableEq, Repr

/-- One image entry (`struct image`): the fields of the registry node used by
imglist.c — source identifier, file size, modification time, 1-based index —
plus the thumbnail slot used by gallery.c (abstracted to an optional token,
`none` meaning "no thumbnail"). -/
structure Image where
  source : String
  file_size : Int := 0
  file_time : Int := 0
  index : Nat := 0
  thumb : Option Nat := Option.none
deriving DecidableEq, Repr, Inhabited

/-- The image-list context (`struct image_list`): the ordered list of entries,
the size counter and the configuration flags that the modelled operations
read.  The pthread mutex is not part of the functional state. -/
structure ImgList where
  images : List Image := []
  size : Nat := 0
  order : ListOrder := ListOrder.none
  reverse : Bool := false
  recursive : Bool := false
deriving Repr

/-- Two's-complement interpretation of a 64-bit value: the C code stores
differences of 64-bit quantities into a signed 64-bit `ssize_t`, which wraps
modulo 2^64 into the range [-2^63, 2^63). -/
def wrap64 (x : Int) : Int :=
  (x + 2 ^ 63) % 2 ^ 64 - 2 ^ 63

/-- Value of a run of ASCII digits, most significant first
(the accumulation loop inside `strtoull`). -/
def digitsToNat (ds : List Char) : Nat :=
  ds.foldl (fun acc c => acc * 10 + (c.toNat - 48)) 0

/-- Model of `strtoull(a, &a, 10)` at a position whose first character is a digit:
parses the maximal digit run, clamping at `ULLONG_MAX` on overflow, and
returns the value together with the rest of the string. -/
def strtoull10 (a : List Char) : Nat × List Char :=
  (min (digitsToNat (a.takeWhile Char.isDigit)) (2 ^ 64 - 1),
   a.dropWhile Char.isDigit)

/-- One comparison loop of the `order_numeric` case of `ordered_position`:
`while (cmp == 0 && *a && *b)` — digit runs are parsed by `strtoull` and
subtracted (64-bit wrap into `ssize_t`), other characters compared by byte
value.  `fuel` bounds the iteration count (each step consumes at least one
character of `a`, so `a.length` steps suffice). -/
def numericCmpAux : Nat → List Char → List Char → Int
  | 0, _, _ => 0
  | _ + 1, [], _ => 0
  | _ + 1, _, [] => 0
  | fuel + 1, a@(ca :: ta), b@(cb :: tb) =>
    if ca.isDigit && cb.isDigit then
      let pa := strtoull10 a
      let pb := strtoull10 b
      let c := wrap64 ((pa.1 : Int) - (pb.1 : Int))
      if c = 0 then numericCmpAux fuel pa.2 pb.2 else c
    else
      let c : Int := (ca.toNat : Int) - (cb.toNat : Int)
      if c = 0 then numericCmpAux fuel ta tb else c

/-- Numeric-aware string comparison used by the `order_numeric` branch of
`ordered_position` (imglist.c lines 88-101). -/
def numericCmp (a b : List Char) : Int :=
  numericCmpAux a.length a b

/-- Modelled from the spec: `strcoll` in the C locale compares byte-wise
(lexicographic over byte values).  Used only by the `order_alpha` branch;
no claim depends on its exact collation. -/
def byteCmp : List Char → List Char → Int
  | [], [] => 0
  | [], _ :: _ => -1
  | _ :: _, [] => 1
  | ca :: ta, cb :: tb =>
    if ca.toNat = cb.toNat then byteCmp ta tb
    else (ca.toNat : Int) - (cb.toNat : Int)

/-- The three-way comparison between a new entry `img` and an existing entry
`it` computed inside the scan loop of `ordered_position` (the `switch` on
`ctx.order`, imglist.c lines 84-112).  The `order_mtime` and `order_size`
cases subtract the raw 64-bit field values into an `ssize_t`, hence the
two's-complement wrap. -/
def orderCmp (order : ListOrder) (img it : Image) : Int :=
  match order with
  | ListOrder.alpha => byteCmp img.source.toList it.source.toList
  | ListOrder.numeric => numericCmp img.source.toList it.source.toList
  | ListOrder.mtime => wrap64 (it.file_time - img.file_time)
  | ListOrder.size => wrap64 (it.file_size - img.file_size)
  | _ => 0

/-- The scan of the sorted-order branch of `ordered_position`: walk the list
and return the position of the first entry for which the comparison decides
"insert before" (`(reverse && cmp > 0) || (!reverse && cmp < 0)`), or `none`
if the scan reaches the end. -/
def scanPos (order : ListOrder) (reverse : Bool) (img : Image) :
    List Image → Nat → Option Nat
  | [], _ => Option.none
  | it :: rest, k =>
    let cmp := orderCmp order img it
    if (reverse && cmp > 0) || (!reverse && cmp < 0) then some k
    else scanPos order reverse img rest (k + 1)

/-- Embedding of `ordered_position` (imglist.c lines 67-121): the position in the current
list before which the new entry is inserted, or `none` to append.  Entries
are identified by their position in `r.images`.  `randVal` is the value of
the `rand()` call made by the `order_random` branch; it is unused otherwise.
(The random branch computes `rand() % ctx.size`; at every call site
`ctx.size` has already been incremented for the new entry, so it is
nonzero.) -/
def ordered_position (r : ImgList) (img : Image) (randVal : Nat) : Option Nat :=
  match r.order with
  | ListOrder.none => Option.none
  | ListOrder.random =>
    let i := randVal % r.size
    if i < r.images.length then some i else Option.none
  | _ => scanPos r.order r.reverse img r.images 0

/-- Embedding of `list_insert(pos, entry)`: insert `e` immediately before position `k`.
(`pos` is always a live node in the C code, so `k < length` at every call;
the out-of-range case is unreachable and modelled as append.) -/
def list_insert : List Image → Nat → Image → List Image
  | l, 0, e => e :: l
  | [], _ + 1, e => [e]
  | x :: xs, k + 1, e => x :: list_insert xs k e

/-- Embedding of `imglist_find` (imglist.c lines 544-552): first entry whose source
matches exactly, scanning from the head. -/
def imglist_find (r : ImgList) (source : String) : Option Image :=
  r.images.find? (fun it => it.source == source)

/-- Position variant of `imglist_find`: the C function returns a pointer to
the node, which in the positional model is the index of the first match. -/
def imglist_findPos (r : ImgList) (source : String) : Option Nat :=
  r.images.findIdx? (fun it => it.source == source)

/-- Embedding of `add_entry` (imglist.c lines 129-160): dedup via `imglist_find`; on a
miss create the entry (copying `st_size`/`st_mtime` from the optional stat),
assign index `++ctx.size`, and insert at the position chosen by
`ordered_position` (append when the scan found none).  Returns the new
registry state together with the returned entry. -/
def add_entry (r : ImgList) (source : String) (st : Option (Int × Int))
    (randVal : Nat) : ImgList × Image :=
  match imglist_find r source with
  | some entry => (r, entry)
  | Option.none =>
    let entry : Image :=
      { source := source
        file_size := (st.map Prod.fst).getD 0
        file_time := (st.map Prod.snd).getD 0
        index := r.size + 1 }
    let r1 : ImgList := { r with size := r.size + 1 }
    match ordered_position r1 entry randVal with
    | some k => ({ r1 with images := list_insert r1.images k entry }, entry)
    | Option.none => ({ r1 with images := r1.images ++ [entry] }, entry)

/-- The loop body of `reindex` starting from counter value `k`
(`it->index = ++ctx.size` for each entry in order). -/
def reindexFrom (k : Nat) : List Image → List Image
  | [] => []
  | it :: rest => { it with index := k + 1 } :: reindexFrom (k + 1) rest

/-- Embedding of `reindex` (imglist.c lines 364-371): reset the size counter and renumber
every entry 1..N in traversal order. -/
def reindex (r : ImgList) : ImgList :=
  { r with images := reindexFrom 0 r.images, size := r.images.length }

/-- Embedding of `imglist_remove` (imglist.c lines 537-542) applied to the node at
position `k`: unlink it, free it, and reindex. -/
def imglist_remove (r : ImgList) (k : Nat) : ImgList :=
  reindex { r with images := r.images.eraseIdx k }

/-- Embedding of `add_dir` (imglist.c lines 167-221) flattened over the regular files the
directory walk discovers: `readdir` and `stat` are external, so the traversal
is a parameter — the list of `(path, (st_size, st_mtime), rand-draw)` triples
for the regular files encountered, in discovery order; each is added via
`add_entry`.  The rand draw is consumed only under `order_random`. -/
def add_dir (r : ImgList) (files : List (String × (Int × Int) × Nat)) :
    ImgList :=
  files.foldl (fun acc f => (add_entry acc f.1 (some f.2.1) f.2.2).1) r

/-- A filesystem event as seen by `on_fsevent`, with the external `stat` /
directory-walk results attached: a regular-file creation carries the stat
result (`none` when `stat` failed or the path is not a regular file), a
directory creation carries the flattened walk. -/
inductive FsEvent where
  | createFile (path : String) (st : Option (Int × Int)) (randVal : Nat)
  | createDir (files : List (String × (Int × Int) × Nat))
  | removeFile (path : String)
  | modifyFile (path : String)

/-- Embedding of `on_fsevent` (imglist.c lines 374-421): the registry transformation
performed inside the lock — the event-specific mutation followed by
`reindex()`, which runs before the lock is released.  The returned state is
the state at `imglist_unlock`. -/
def on_fsevent (r : ImgList) (ev : FsEvent) : ImgList :=
  let r1 : ImgList :=
    match ev with
    | FsEvent.createFile p st rv =>
      match st with
      | some stv => (add_entry r p (some stv) rv).1
      | Option.none => r
    | FsEvent.createDir files => if r.recursive then add_dir r files else r
    | FsEvent.removeFile p =>
      match imglist_findPos r p with
      | some k => imglist_remove r k
      | Option.none => r
    | FsEvent.modifyFile _ => r
  reindex r1

/-- The forward scan of `imglist_distance`: starting at position `i` over the
remaining sublist, count steps until the node at position `j` is reached
(pointer equality `it == end` is position equality); if the scan runs off the
end every visited node was counted. -/
def scanSteps (i j : Nat) : List Image → Nat
  | [] => 0
  | _ :: rest => if i = j then 0 else 1 + scanSteps (i + 1) j rest

/-- Embedding of `imglist_distance` (imglist.c lines 660-681) on positions `a`, `b` of the
list: if `start->index <= end->index` scan forward from `start` counting up,
otherwise scan forward from `end` counting down. -/
def imglist_distance (l : List Image) (a b : Nat) : Int :=
  if (l.getD a default).index ≤ (l.getD b default).index then
    (scanSteps a b (l.drop a) : Int)
  else
    -(scanSteps b a (l.drop b) : Int)

/-- One step of the wraparound walk in `imglist_rand`:
`img = list_next(img); if (!img) img = ctx.images;` on positions. -/
def randStep (len p : Nat) : Nat :=
  if p + 1 < len then p + 1 else 0

/-- The `while (offset--)` walk of `imglist_rand`. -/
def randWalk (len : Nat) : Nat → Nat → Nat
  | p, 0 => p
  | p, n + 1 => randWalk len (randStep len p) n

/-- Embedding of `imglist_rand` (imglist.c lines 621-633) on the position `p` of the
current entry: `offset = 1 + rand() % (ctx.size - 1)` followed by `offset`
wraparound steps.  The modulus divides by `ctx.size - 1`, which is zero when
the list holds a single entry. -/
def imglist_rand (r : ImgList) (p randVal : Nat) : Nat :=
  randWalk r.images.length p (1 + randVal % (r.size - 1))

/-! ## Gallery mode (gallery.c) -/

/-- Modelled from the spec: `image_has_thumb` (declared in image.h, which is
not part of the sources) — "an entry with a thumbnail"; the thumbnail slot is
the `thumb` field, present iff `some`. -/
def image_has_thumb (img : Image) : Bool :=
  img.thumb.isSome

/-- Modelled from the spec: `image_update` (image.h, not in the sources) —
"merge it into the live Entry": the thumbnail produced by the worker's
private copy is moved into the live registry entry; the entry's identity,
source and position are untouched. -/
def image_update (origin it : Image) : Image :=
  { origin with thumb := it.thumb }

/-- Embedding of `pstore_load` (gallery.c lines 136-153) with its external effects as
parameters: `pathOk` is whether `pstore_path` produced a cache path,
`statSrc` / `statThumb` are the `st_mtim.tv_sec` results of the two `stat`
calls (`none` on failure), and `thumbLoadOk` is the result of
`image_thumb_load` on the cached file.  Returns whether the lookup hit. -/
def pstore_load (pathOk : Bool) (statSrc statThumb : Option Int)
    (thumbLoadOk : Bool) : Bool :=
  if !pathOk then false
  else
    match statSrc, statThumb with
    | some ts, some tt => if ts > tt then false else thumbLoadOk
    | _, _ => false

/-- The persistent-store branch of the worker loop (gallery.c lines 210-224):
whether `pstore_save` is invoked for one queued item.  `pstore` is
`ctx.thumb_pstore`, `cacheHit` the result of `pstore_load` (only consulted
when `pstore` is set), `loadOk` whether `image_load` succeeded, `thumbOk`
whether `image_thumb_create` succeeded, `w`/`h` the decoded frame dimensions
and `ts` `ctx.layout.thumb_size`. -/
def loaderSaves (pstore cacheHit loadOk thumbOk : Bool) (w h ts : Nat) :
    Bool :=
  if !pstore || !cacheHit then
    if loadOk then
      if thumbOk && pstore then decide (w > ts) && decide (h > ts)
      else false
    else false
  else false

/-- The commit step of the worker loop (gallery.c lines 228-242): under the
lock, look up the live entry by the queued item's source; if found, merge
the produced thumbnail via `image_update`, or remove the live entry when the
item carries no thumbnail; if not found, do nothing. -/
def loader_commit (r : ImgList) (it : Image) : ImgList :=
  match imglist_findPos r it.source with
  | some k =>
    if image_has_thumb it then
      { r with images := r.images.set k (image_update (r.images.getD k default) it) }
    else
      imglist_remove r k
  | Option.none => r

/-- Modelled from the spec: the overflow-free three-way comparison the spec
prescribes for the time/size ordering policies ("use a three-way comparison"),
to be compared with the wrapping subtraction the code performs. -/
def orderCmpSpec (order : ListOrder) (img it : Image) : Int :=
  match order with
  | ListOrder.mtime => it.file_time - img.file_time
  | ListOrder.size => it.file_size - img.file_size
  | _ => orderCmp order img it

/-! ## Helper lemmas -/

lemma reindexFrom_map_index (l : List Image) :
    ∀ k : Nat, (reindexFrom k l).map Image.index = List.range' (k + 1) l.length := by
  induction l with
  | nil => intro k; rfl
  | cons x xs ih =>
    intro k
    simp [reindexFrom, List.range'_succ, ih]

lemma reindexFrom_length (l : List Image) :
    ∀ k : Nat, (reindexFrom k l).length = l.length := by
  induction l with
  | nil => intro k; rfl
  | cons x xs ih => intro k; simp [reindexFrom, ih]

lemma reindexFrom_map_source (l : List Image) :
    ∀ k : Nat, (reindexFrom k l).map Image.source = l.map Image.source := by
  induction l with
  | nil => intro k; rfl
  | cons x xs ih => intro k; simp [reindexFrom, ih]

lemma scanSteps_eq (j : Nat) :
    ∀ (m : List Image) (i : Nat), i ≤ j → j - i ≤ m.length →
      scanSteps i j m = j - i := by
  intro m
  induction m with
  | nil =>
    intro i h1 h2
    simp only [scanSteps, List.length_nil, Nat.le_zero] at *
    omega
  | cons x rest ih =>
    intro i h1 h2
    by_cases hij : i = j
    · simp [scanSteps, hij]
    · have h1' : i + 1 ≤ j := by omega
      have h2' : j - (i + 1) ≤ rest.length := by
        simp only [List.length_cons] at h2; omega
      simp only [scanSteps, if_neg hij, ih (i + 1) h1' h2']
      omega

lemma find?_list_insert (p : Image → Bool) (e : Image) (hp : p e = true) :
    ∀ (l : List Image) (k : Nat), (∀ x ∈ l, ¬p x = true) →
      (list_insert l k e).find? p = some e := by
  intro l
  induction l with
  | nil =>
    intro k _
    cases k <;> simp [list_insert, List.find?_cons_of_pos _ hp]
  | cons x xs ih =>
    intro k hl
    cases k with
    | zero => simp [list_insert, List.find?_cons_of_pos _ hp]
    | succ k' =>
      have hx : ¬p x = true := hl x (by simp)
      have hxs : ∀ y ∈ xs, ¬p y = true := fun y hy => hl y (by simp [hy])
      simp only [list_insert, List.find?_cons_of_neg _ hx]
      exact ih k' hxs

lemma find?_append_singleton (p : Image → Bool) (e : Image) (hp : p e = true)
    (l : List Image) (hl : ∀ x ∈ l, ¬p x = true) :
    (l ++ [e]).find? p = some e := by
  rw [List.find?_append, List.find?_eq_none.mpr hl]
  simp [List.find?_cons_of_pos _ hp]

lemma findIdx?_bounds (l : List Image) :
    ∀ (p : Image → Bool) (i k : Nat), List.findIdx? p l i = some k →
      k < i + l.length := by
  induction l with
  | nil => intro p i k h; simp [List.findIdx?] at h
  | cons x xs ih =>
    intro p i k h
    rw [List.findIdx?_cons] at h
    by_cases hx : p x = true
    · rw [if_pos hx] at h
      cases h
      simp only [List.length_cons]
      omega
    · rw [if_neg hx] at h
      have := ih p (i + 1) k h
      simp only [List.length_cons]
      omega

lemma getD_set_self (u d : Image) :
    ∀ (l : List Image) (k : Nat), k < l.length → (l.set k u).getD k d = u := by
  intro l
  induction l with
  | nil => intro k hk; simp at hk
  | cons x xs ih =>
    intro k hk
    cases k with
    | zero => rfl
    | succ k' =>
      simp only [List.length_cons] at hk
      simpa [List.set, List.getD] using ih k' (by omega)

lemma map_source_set (u : Image) :
    ∀ (l : List Image) (k : Nat), u.source = (l.getD k default).source →
      (l.set k u).map Image.source = l.map Image.source := by
  intro l
  induction l with
  | nil => intro k _; rfl
  | cons x xs ih =>
    intro k hu
    cases k with
    | zero => simpa [List.set] using hu
    | succ k' =>
      simp only [List.set, List.map_cons, List.cons.injEq, eq_self_iff_true,
        true_and]
      exact ih k' hu

lemma randWalk_eq_mod (len : Nat) (hlen : 0 < len) :
    ∀ (n p : Nat), p < len → randWalk len p n = (p + n) % len := by
  intro n
  induction n with
  | zero => intro p hp; simp [randWalk, Nat.mod_eq_of_lt hp]
  | succ n ih =>
    intro p hp
    have hs : randStep len p < len := by unfold randStep; split <;> omega
    rw [show randWalk len p (n + 1) = randWalk len (randStep len p) n from rfl,
      ih _ hs]
    unfold randStep
    by_cases hlt : p + 1 < len
    · rw [if_pos hlt]
      congr 1
      omega
    · rw [if_neg hlt]
      have hpl : p + 1 = len := by omega
      rw [Nat.zero_add, show p + (n + 1) = len + n by omega, Nat.add_mod_left]

/-! ## Theorems -/

/-- C3. Under the numeric-aware ordering policy with reverse disabled,
inserting `img2.png`, `img10.png`, `img1.png` in that order into an empty
registry yields traversal order `img1.png`, `img2.png`, `img10.png`: digit
runs compare as unsigned integers, other bytes by value, first non-zero
comparison decides the insertion point. -/
theorem numeric_order_img_example :
    ((add_entry
        (add_entry
          (add_entry { order := ListOrder.numeric } "img2.png" Option.none 0).1
          "img10.png" Option.none 0).1
        "img1.png" Option.none 0).1).images.map Image.source =
      ["img1.png", "img2.png", "img10.png"] := by
  decide

/-- C5. The persistent-cache lookup reports a miss whenever the source's
modification time is newer than the cached thumbnail's, and also when either
`stat` fails or no cache path can be derived — regardless of whether the
cached file would load. -/
theorem pstore_load_miss (pathOk : Bool) (statSrc statThumb : Option Int)
    (thumbLoadOk : Bool)
    (h : pathOk = false ∨ statSrc = Option.none ∨ statThumb = Option.none ∨
      ∃ ts tt, statSrc = some ts ∧ statThumb = some tt ∧ ts > tt) :
    pstore_load pathOk statSrc statThumb thumbLoadOk = false := by
  rcases h with h | h | h | ⟨ts, tt, hs, ht, hgt⟩
  · simp [pstore_load, h]
  · subst h
    cases pathOk <;> simp [pstore_load]
  · subst h
    cases pathOk <;> cases statSrc <;> simp [pstore_load]
  · subst hs; subst ht
    cases pathOk <;> simp [pstore_load, hgt]

/-- Witness for `pstore_load_miss`: a well-formed cached file with source
mtime 5 newer than thumbnail mtime 3 is still a miss. -/
theorem pstore_load_miss_witness :
    pstore_load true (some 5) (some 3) true = false :=
  pstore_load_miss true (some 5) (some 3) true
    (Or.inr (Or.inr (Or.inr ⟨5, 3, rfl, rfl, by decide⟩)))

/-- C6. On a persistent-cache miss, given that the decode succeeded and
the thumbnail was generated, the worker invokes the persistent-store save if
and only if persistent caching is enabled and both decoded dimensions
strictly exceed the thumbnail edge size. -/
theorem loader_save_iff (pstore loadOk thumbOk : Bool) (w h ts : Nat)
    (hl : loadOk = true) (ht : thumbOk = true) :
    loaderSaves pstore false loadOk thumbOk w h ts = true ↔
      (pstore = true ∧ ts < w ∧ ts < h) := by
  subst hl; subst ht
  cases pstore <;> simp [loaderSaves]

/-- Witness for `loader_save_iff`: caching enabled, 6×7 frame, edge size 5. -/
theorem loader_save_iff_witness :
    loaderSaves true false true true 6 7 5 = true ↔
      (true = true ∧ 5 < 6 ∧ 5 < 7) :=
  loader_save_iff true true true 6 7 5 rfl rfl

/-- C8. The worker's commit step never adds an entry: when no live
registry entry with the queued item's source exists at commit time, the
registry (membership, order and size counter) is unchanged. -/
theorem loader_commit_no_resurrect (r : ImgList) (it : Image)
    (h : imglist_findPos r it.source = Option.none) :
    loader_commit r it = r := by
  simp [loader_commit, h]

/-- Witness for `loader_commit_no_resurrect`: committing a result for a
source that was removed from the registry leaves the registry untouched. -/
theorem loader_commit_no_resurrect_witness :
    loader_commit { images := [{ source := "a", index := 1 }], size := 1 }
        { source := "gone", thumb := some 7 } =
      { images := [{ source := "a", index := 1 }], size := 1 } :=
  loader_commit_no_resurrect
    { images := [{ source := "a", index := 1 }], size := 1 }
    { source := "gone", thumb := some 7 } (by decide)

/-- C9 (code bug). The modification-time comparison in
`ordered_position` subtracts raw 64-bit times into a signed 64-bit value:
with an existing entry whose `file_time` is `2^63 - 1` and a new entry whose
`file_time` is `-1`, the subtraction overflows and the code's comparison is
negative (new entry inserted before), while the overflow-free three-way
comparison of the same fields is positive (scan should continue) — the two
orderings disagree on representable `time_t` values. -/
theorem mtime_cmp_overflow_bug :
    orderCmp ListOrder.mtime
        { source := "B", file_time := -1, index := 2 }
        { source := "A", file_time := 2 ^ 63 - 1, index := 1 } < 0 ∧
      0 < orderCmpSpec ListOrder.mtime
        { source := "B", file_time := -1, index := 2 }
        { source := "A", file_time := 2 ^ 63 - 1, index := 1 } ∧
      ordered_position
        { images := [{ source := "A", file_time := 2 ^ 63 - 1, index := 1 }],
          size := 2, order := ListOrder.mtime }
        { source := "B", file_time := -1, index := 2 } 0 = some 0 := by
  refine ⟨by decide, by decide, by decide⟩

/-- C1. Inserting a source already present in the registry is idempotent:
when `imglist_find` hits, `add_entry` returns the existing entry and the
registry (contents, order and size counter) unchanged; and a second insert of
the same source — whatever stat or rand draw it carries — returns exactly
the state and entry produced by the first insert. -/
theorem add_entry_idempotent (r : ImgList) (s : String)
    (st st' : Option (Int × Int)) (rv rv' : Nat) :
    (∀ e, imglist_find r s = some e → add_entry r s st rv = (r, e)) ∧
    add_entry (add_entry r s st rv).1 s st' rv' = add_entry r s st rv := by
  have hfind : ∀ (st0 : Option (Int × Int)) (rv0 : Nat) (e : Image),
      imglist_find r s = some e → add_entry r s st0 rv0 = (r, e) := by
    intro st0 rv0 e he
    simp [add_entry, he]
  refine ⟨hfind st rv, ?_⟩
  cases he : imglist_find r s with
  | some e =>
    rw [hfind st rv e he]
    exact hfind st' rv' e he
  | none =>
    have hnotin : ∀ x ∈ r.images, ¬(x.source == s) = true := by
      unfold imglist_find at he
      exact List.find?_eq_none.mp he
    simp only [add_entry, he]
    set E : Image :=
      { source := s, file_size := (st.map Prod.fst).getD 0,
        file_time := (st.map Prod.snd).getD 0, index := r.size + 1 } with hE
    have hpE : (E.source == s) = true := by rw [hE]; simp
    cases hop : ordered_position { r with size := r.size + 1 } E rv with
    | some k =>
      simp only [hop]
      have hfind2 : (list_insert r.images k E).find?
          (fun x => x.source == s) = some E :=
        find?_list_insert _ _ hpE r.images k hnotin
      simp [add_entry, imglist_find, hfind2]
    | none =>
      simp only [hop]
      have hfind2 : (r.images ++ [E]).find?
          (fun x => x.source == s) = some E :=
        find?_append_singleton _ _ hpE r.images hnotin
      simp [add_entry, imglist_find, hfind2]

/-- Witness for `add_entry_idempotent`: a registry already holding `"a"`;
inserting `"a"` returns the existing entry and the registry unchanged, and
inserting it again returns the same pair. -/
theorem add_entry_idempotent_witness :
    add_entry { images := [⟨"a", 0, 0, 1, Option.none⟩], size := 1 } "a"
        Option.none 0 =
      ({ images := [⟨"a", 0, 0, 1, Option.none⟩], size := 1 },
        ⟨"a", 0, 0, 1, Option.none⟩) ∧
    add_entry
        (add_entry { images := [⟨"a", 0, 0, 1, Option.none⟩], size := 1 } "a"
          Option.none 0).1 "a" Option.none 0 =
      add_entry { images := [⟨"a", 0, 0, 1, Option.none⟩], size := 1 } "a"
        Option.none 0 :=
  ⟨(add_entry_idempotent { images := [⟨"a", 0, 0, 1, Option.none⟩], size := 1 }
      "a" Option.none Option.none 0 0).1 ⟨"a", 0, 0, 1, Option.none⟩ (by decide),
    (add_entry_idempotent { images := [⟨"a", 0, 0, 1, Option.none⟩], size := 1 }
      "a" Option.none Option.none 0 0).2⟩

/-- C2. After `reindex()` the indices of the entries, in traversal
order, are exactly `1..size` and the size counter equals the number of
entries; and the state `on_fsevent` leaves at lock release — whatever the
event — satisfies the same invariant, because every branch is followed by
`reindex()` before the lock is released. -/
theorem reindex_dense_indices (r : ImgList) (ev : FsEvent) :
    ((reindex r).images.map Image.index =
        List.range' 1 (reindex r).images.length ∧
      (reindex r).size = (reindex r).images.length) ∧
    ((on_fsevent r ev).images.map Image.index =
        List.range' 1 (on_fsevent r ev).images.length ∧
      (on_fsevent r ev).size = (on_fsevent r ev).images.length) := by
  have hgen : ∀ s : ImgList,
      (reindex s).images.map Image.index =
        List.range' 1 (reindex s).images.length ∧
      (reindex s).size = (reindex s).images.length := by
    intro s
    constructor
    · simpa [reindex, reindexFrom_length] using reindexFrom_map_index s.images 0
    · simp [reindex, reindexFrom_length]
  exact ⟨hgen r, by simpa only [on_fsevent] using hgen _⟩

/-- C4. For entries of a registry whose indices are dense and consistent
with traversal order (the state `reindex` establishes), `imglist_distance`
is antisymmetric — `distance a b = -(distance b a)` — and in particular
`distance a a = 0`. -/
theorem imglist_distance_antisymm (l : List Image) (a b : Nat)
    (hidx : ∀ k, k < l.length → (l.getD k default).index = k + 1)
    (ha : a < l.length) (hb : b < l.length) :
    imglist_distance l a b = -imglist_distance l b a ∧
      imglist_distance l a a = 0 := by
  have hIa := hidx a ha
  have hIb := hidx b hb
  have hdlen : ∀ i : Nat, (l.drop i).length = l.length - i :=
    fun i => List.length_drop i l
  have hself : ∀ c : Nat, c < l.length → imglist_distance l c c = 0 := by
    intro c hc
    simp only [imglist_distance, if_pos (le_refl _)]
    rw [scanSteps_eq c (l.drop c) c (le_refl c) (by omega)]
    simp
  refine ⟨?_, hself a ha⟩
  rcases Nat.lt_trichotomy a b with hab | hab | hab
  · have h1 : imglist_distance l a b = ((b - a : Nat) : Int) := by
      simp only [imglist_distance, hIa, hIb, if_pos (by omega : a + 1 ≤ b + 1)]
      rw [scanSteps_eq b (l.drop a) a (by omega) (by rw [hdlen]; omega)]
    have h2 : imglist_distance l b a = -((b - a : Nat) : Int) := by
      simp only [imglist_distance, hIa, hIb]
      rw [if_neg (by omega), scanSteps_eq b (l.drop a) a (by omega)
        (by rw [hdlen]; omega)]
    rw [h1, h2, neg_neg]
  · subst hab
    rw [hself a ha]
    simp
  · have h1 : imglist_distance l a b = -((a - b : Nat) : Int) := by
      simp only [imglist_distance, hIa, hIb]
      rw [if_neg (by omega), scanSteps_eq a (l.drop b) b (by omega)
        (by rw [hdlen]; omega)]
    have h2 : imglist_distance l b a = ((a - b : Nat) : Int) := by
      simp only [imglist_distance, hIa, hIb, if_pos (by omega : b + 1 ≤ a + 1)]
      rw [scanSteps_eq a (l.drop b) b (by omega) (by rw [hdlen]; omega)]
    rw [h1, h2]

/-- Witness for `imglist_distance_antisymm`: a two-entry reindexed list,
positions 0 and 1. -/
theorem imglist_distance_antisymm_witness :
    imglist_distance [⟨"a", 0, 0, 1, Option.none⟩, ⟨"b", 0, 0, 2, Option.none⟩]
        0 1 =
      -imglist_distance
        [⟨"a", 0, 0, 1, Option.none⟩, ⟨"b", 0, 0, 2, Option.none⟩] 1 0 ∧
    imglist_distance [⟨"a", 0, 0, 1, Option.none⟩, ⟨"b", 0, 0, 2, Option.none⟩]
        0 0 = 0 :=
  imglist_distance_antisymm
    [⟨"a", 0, 0, 1, Option.none⟩, ⟨"b", 0, 0, 2, Option.none⟩] 0 1
    (by decide) (by decide) (by decide)

/-- C7. In the worker's commit step, when a live registry entry with the
queued item's source exists (found at position `k`): if the item carries no
usable thumbnail the live entry is removed (the commit equals
`imglist_remove` at `k`, shrinking the list by one); if it carries a
thumbnail the result is merged into the live entry in place — the source
sequence is unchanged and the entry at `k` now holds the item's thumbnail. -/
theorem loader_commit_merge_or_drop (r : ImgList) (it : Image) (k : Nat)
    (h : imglist_findPos r it.source = some k) :
    (it.thumb = Option.none →
      loader_commit r it = imglist_remove r k ∧
      (loader_commit r it).images.length + 1 = r.images.length) ∧
    (∀ t, it.thumb = some t →
      (loader_commit r it).images.map Image.source =
        r.images.map Image.source ∧
      ((loader_commit r it).images.getD k default).thumb = some t) := by
  have hk : k < r.images.length := by
    have := findIdx?_bounds r.images (fun x => x.source == it.source) 0 k h
    omega
  constructor
  · intro hnone
    have hcommit : loader_commit r it = imglist_remove r k := by
      simp [loader_commit, h, image_has_thumb, hnone]
    refine ⟨hcommit, ?_⟩
    rw [hcommit]
    simp only [imglist_remove, reindex, reindexFrom_length,
      List.length_eraseIdx, if_pos hk]
    omega
  · intro t ht
    have hcommit : loader_commit r it =
        { r with images :=
            r.images.set k (image_update (r.images.getD k default) it) } := by
      simp [loader_commit, h, image_has_thumb, ht]
    rw [hcommit]
    refine ⟨map_source_set _ r.images k rfl, ?_⟩
    rw [getD_set_self _ _ r.images k hk]
    simpa [image_update] using ht

/-- Witness for `loader_commit_merge_or_drop`: a two-entry registry and a
queued item for `"b"` carrying thumbnail token 5, found at position 1. -/
theorem loader_commit_merge_or_drop_witness :
    ((⟨"b", 0, 0, 2, some 5⟩ : Image).thumb = Option.none →
      loader_commit
          { images := [⟨"a", 0, 0, 1, Option.none⟩,
            ⟨"b", 0, 0, 2, Option.none⟩], size := 2 }
          ⟨"b", 0, 0, 2, some 5⟩ =
        imglist_remove
          { images := [⟨"a", 0, 0, 1, Option.none⟩,
            ⟨"b", 0, 0, 2, Option.none⟩], size := 2 } 1 ∧
      (loader_commit
          { images := [⟨"a", 0, 0, 1, Option.none⟩,
            ⟨"b", 0, 0, 2, Option.none⟩], size := 2 }
          ⟨"b", 0, 0, 2, some 5⟩).images.length + 1 =
        ({ images := [⟨"a", 0, 0, 1, Option.none⟩,
            ⟨"b", 0, 0, 2, Option.none⟩], size := 2 } : ImgList).images.length) ∧
    (∀ t, (⟨"b", 0, 0, 2, some 5⟩ : Image).thumb = some t →
      (loader_commit
          { images := [⟨"a", 0, 0, 1, Option.none⟩,
            ⟨"b", 0, 0, 2, Option.none⟩], size := 2 }
          ⟨"b", 0, 0, 2, some 5⟩).images.map Image.source =
        ({ images := [⟨"a", 0, 0, 1, Option.none⟩,
            ⟨"b", 0, 0, 2, Option.none⟩], size := 2 } : ImgList).images.map
          Image.source ∧
      ((loader_commit
          { images := [⟨"a", 0, 0, 1, Option.none⟩,
            ⟨"b", 0, 0, 2, Option.none⟩], size := 2 }
          ⟨"b", 0, 0, 2, some 5⟩).images.getD 1 default).thumb = some t) :=
  loader_commit_merge_or_drop
    { images := [⟨"a", 0, 0, 1, Option.none⟩, ⟨"b", 0, 0, 2, Option.none⟩],
      size := 2 }
    ⟨"b", 0, 0, 2, some 5⟩ 1 (by decide)

/-- C10. `imglist_rand` divides by `size - 1`, so it is well-defined
only for registries of at least two entries; under that precondition (with
the size counter consistent with the list) the wraparound walk terminates at
a valid position distinct from the starting entry. -/
theorem imglist_rand_valid (r : ImgList) (p rv : Nat)
    (hsz : r.size = r.images.length) (h2 : 2 ≤ r.size)
    (hp : p < r.images.length) :
    imglist_rand r p rv < r.images.length ∧ imglist_rand r p rv ≠ p := by
  have hlen0 : 0 < r.images.length := by omega
  have hoffub : 1 + rv % (r.size - 1) < r.images.length := by
    have : rv % (r.size - 1) < r.size - 1 := Nat.mod_lt _ (by omega)
    omega
  have hwalk : imglist_rand r p rv =
      (p + (1 + rv % (r.size - 1))) % r.images.length := by
    unfold imglist_rand
    exact randWalk_eq_mod r.images.length hlen0 (1 + rv % (r.size - 1)) p hp
  constructor
  · rw [hwalk]
    exact Nat.mod_lt _ hlen0
  · rw [hwalk]
    intro hcontra
    have hmod : (p + (1 + rv % (r.size - 1))) % r.images.length =
        (p + 0) % r.images.length := by
      rw [hcontra, Nat.add_zero, Nat.mod_eq_of_lt hp]
    have hdvd : r.images.length ∣ (1 + rv % (r.size - 1)) := by
      have hc : 1 + rv % (r.size - 1) ≡ 0 [MOD r.images.length] :=
        Nat.ModEq.add_left_cancel' p hmod
      exact (Nat.modEq_zero_iff_dvd).mp hc
    have := Nat.le_of_dvd (by omega) hdvd
    omega

/-- Witness for `imglist_rand_valid`: a three-entry registry, start position
1, rand draw 0 — the walk lands on a valid position other than 1. -/
theorem imglist_rand_valid_witness :
    imglist_rand
        { images := [⟨"a", 0, 0, 1, Option.none⟩, ⟨"b", 0, 0, 2, Option.none⟩,
          ⟨"c", 0, 0, 3, Option.none⟩], size := 3 } 1 0 <
      ({ images := [⟨"a", 0, 0, 1, Option.none⟩, ⟨"b", 0, 0, 2, Option.none⟩,
          ⟨"c", 0, 0, 3, Option.none⟩], size := 3 } : ImgList).images.length ∧
    imglist_rand
        { images := [⟨"a", 0, 0, 1, Option.none⟩, ⟨"b", 0, 0, 2, Option.none⟩,
          ⟨"c", 0, 0, 3, Option.none⟩], size := 3 } 1 0 ≠ 1 :=
  imglist_rand_valid
    { images := [⟨"a", 0, 0, 1, Option.none⟩, ⟨"b", 0, 0, 2, Option.none⟩,
      ⟨"c", 0, 0, 3, Option.none⟩], size := 3 } 1 0 rfl (by decide) (by decide)

end Swayimg
